import Mathlib

/-!
Verification of the integer square root library (`src/lib.rs`).

The Rust source implements, for every primitive integer type, the trait
method `integer_sqrt_checked` (digit-by-digit binary integer square root)
and the panicking wrapper `integer_sqrt`.  We embed the algorithm shallowly:
a fixed-width integer type is a pair (bit width, signedness); a value of a
signed type is represented by its two's-complement encoding as a `Nat`
below `2 ^ bits`, and machine arithmetic that can overflow is taken
modulo `2 ^ bits` (the wrapping semantics of Rust release builds; debug
builds would instead abort on the same inputs, which is equally a
divergence from the specified value-level behaviour).
-/

namespace IntegerSqrt

/-- A fixed-width machine integer type: bit width and signedness. -/
structure IntTy where
  bits : Nat
  signed : Bool
deriving DecidableEq

/-- Largest representable value, as a natural number. -/
def IntTy.maxN (t : IntTy) : Nat :=
  if t.signed then 2 ^ (t.bits - 1) - 1 else 2 ^ t.bits - 1

/-- Smallest representable value. -/
def IntTy.minI (t : IntTy) : Int :=
  if t.signed then -(2 ^ (t.bits - 1) : Int) else 0

/-- Largest representable value, as an integer. -/
def IntTy.maxI (t : IntTy) : Int := (t.maxN : Int)

/-- Interpret a machine word (a `Nat` computed modulo `2 ^ bits`) as the
mathematical value of type `t`: two's complement for signed types.  This is
how a wrapped product such as `candidate_result * candidate_result`
participates in the source's `<=` comparison. -/
def IntTy.wrapI (t : IntTy) (x : Nat) : Int :=
  let m := x % 2 ^ t.bits
  if t.signed ∧ 2 ^ (t.bits - 1) ≤ m then (m : Int) - 2 ^ t.bits else (m : Int)

/-- The supported primitive types, in the order of the `impl_isqrt!`
invocation in the source (`usize`/`isize` are modelled as 64-bit). -/
def usize : IntTy := ⟨64, false⟩
def u128 : IntTy := ⟨128, false⟩
def u64 : IntTy := ⟨64, false⟩
def u32 : IntTy := ⟨32, false⟩
def u16 : IntTy := ⟨16, false⟩
def u8 : IntTy := ⟨8, false⟩
def isize : IntTy := ⟨64, true⟩
def i128 : IntTy := ⟨128, true⟩
def i64 : IntTy := ⟨64, true⟩
def i32 : IntTy := ⟨32, true⟩
def i16 : IntTy := ⟨16, true⟩
def i8 : IntTy := ⟨8, true⟩

def supported : List IntTy :=
  [usize, u128, u64, u32, u16, u8, isize, i128, i64, i32, i16, i8]

/-- The source's greatest-shift loop
(`while n_shifted != 0 && n_shifted != *self { shift += 2; n_shifted = self.wrapping_shr(shift) }`),
on the two's-complement encoding `n` of the non-negative input.
`wrapping_shr` reduces the shift count modulo the bit width, which the
source guards against by the `n_shifted != *self` comparison.  The loop
runs at most `bits / 2` times, so the structural `fuel` argument (called
with `t.bits`) never reaches `0` before the loop's own exit condition
holds; this is proved below. -/
def findShiftLoop (t : IntTy) (n : Nat) : Nat → Nat → Nat → Nat
  | 0, shift, _ => shift
  | fuel + 1, shift, nsh =>
    if nsh ≠ 0 ∧ nsh ≠ n then
      findShiftLoop t n fuel (shift + 2) (n >>> ((shift + 2) % t.bits))
    else shift

/-- The shift the digit loop starts from: the source initialises
`shift = 2`, `n_shifted = *self >> shift`, runs the loop above, then does
`shift = shift - 2`. -/
def startShift (t : IntTy) (n : Nat) : Nat :=
  findShiftLoop t n t.bits 2 (n >>> 2) - 2

/-- One iteration body of the source's digit loop:
`result = result << 1; let candidate_result = result + 1;
if candidate_result * candidate_result <= *self >> shift { result = candidate_result }`.
The shift and the increment are machine operations modulo `2 ^ bits`, and
the square of the candidate is the wrapped product, interpreted as a value
of type `t` on the left of the (signed, for `i` types) comparison. -/
def digitStep (t : IntTy) (n : Nat) (shift : Nat) (result : Nat) : Nat :=
  let doubled := (result <<< 1) % 2 ^ t.bits
  let cand := (doubled + 1) % 2 ^ t.bits
  if t.wrapI (cand * cand) ≤ ((n >>> shift : Nat) : Int) then cand else doubled

/-- The source's digit loop: run `digitStep` at the current shift, break
when the shift is `0`, otherwise `shift = shift.saturating_sub(2)` and
continue.  (`shift` is always even in actual runs; the `1` case mirrors
what `saturating_sub` would do there.) -/
def digitLoop (t : IntTy) (n : Nat) : Nat → Nat → Nat
  | 0, result => digitStep t n 0 result
  | 1, result => digitLoop t n 0 (digitStep t n 1 result)
  | shift + 2, result => digitLoop t n shift (digitStep t n (shift + 2) result)

/-- `integer_sqrt_checked` from the source: `None` for negative input,
otherwise the greatest-shift search followed by the digit loop, starting
from `result = 0`.  The returned machine word is decoded back to its
mathematical value. -/
def integer_sqrt_checked (t : IntTy) (n : Int) : Option Int :=
  if n < 0 then none
  else
    let m := n.toNat
    some (t.wrapI (digitLoop t m (startShift t m) 0))

/-- `integer_sqrt` from the source:
`self.integer_sqrt_checked().expect("cannot calculate square root of negative number")`.
A panic is modelled as `Except.error` carrying the panic message. -/
def integer_sqrt (t : IntTy) (n : Int) : Except String Int :=
  match integer_sqrt_checked t n with
  | some r => Except.ok r
  | none => Except.error "cannot calculate square root of negative number"

/-- What the digit loop actually computes on an in-range non-negative
input (proved below): the true floor square root, except that when the
final trial square `(2 * sqrt (m / 4) + 1) ^ 2` exceeds the type's
maximum, the wrapped (negative) square is accepted by the comparison and
the too-large candidate is returned. -/
def loopResult (t : IntTy) (m : Nat) : Nat :=
  if t.maxN < (2 * Nat.sqrt (m / 4) + 1) ^ 2 then 2 * Nat.sqrt (m / 4) + 1
  else Nat.sqrt m

/-- Number of `digitStep` applications `digitLoop` performs when started
at a given shift (one per loop iteration of the source). -/
def digitIters : Nat → Nat
  | 0 => 1
  | 1 => 2
  | s + 2 => digitIters s + 1

/-! ### Basic facts about the value interpretation -/

theorem IntTy.maxN_lt_pow (t : IntTy) (hbits : 0 < t.bits) : t.maxN < 2 ^ t.bits := by
  unfold IntTy.maxN
  have h1 : 2 ^ (t.bits - 1) ≤ 2 ^ t.bits := Nat.pow_le_pow_right (by norm_num) (by omega)
  have h2 : 0 < 2 ^ t.bits := Nat.pos_pow_of_pos _ (by norm_num)
  have h3 : 0 < 2 ^ (t.bits - 1) := Nat.pos_pow_of_pos _ (by norm_num)
  split <;> omega

theorem IntTy.wrapI_eq_of_le (t : IntTy) {x : Nat} (hx : x ≤ t.maxN) (hbits : 0 < t.bits) :
    t.wrapI x = (x : Int) := by
  have hlt : x < 2 ^ t.bits := lt_of_le_of_lt hx (t.maxN_lt_pow hbits)
  unfold IntTy.wrapI
  simp only [Nat.mod_eq_of_lt hlt]
  rw [if_neg]
  rintro ⟨hs, hge⟩
  unfold IntTy.maxN at hx
  rw [if_pos hs] at hx
  have h3 : 0 < 2 ^ (t.bits - 1) := Nat.pos_pow_of_pos _ (by norm_num)
  omega

theorem IntTy.wrapI_neg (t : IntTy) {x : Nat} (hs : t.signed = true)
    (h1 : t.maxN < x) (h2 : x < 2 ^ t.bits) : t.wrapI x < 0 := by
  unfold IntTy.wrapI
  simp only [Nat.mod_eq_of_lt h2]
  rw [if_pos]
  · have : (x : Int) < 2 ^ t.bits := by exact_mod_cast h2
    omega
  · refine ⟨by simp [hs], ?_⟩
    unfold IntTy.maxN at h1
    rw [if_pos (by simp [hs])] at h1
    omega

/-! ### The two-bit square root recurrence -/

/-- Floor square root, extracted two bits at a time: knowing
`a = sqrt (m / 4)`, the square root of `m` is `2*a+1` if that candidate's
square fits below `m`, and `2*a` otherwise.  This is the arithmetic
content of one iteration of the source's digit loop. -/
theorem sqrt_step (m : Nat) :
    Nat.sqrt m =
      if (2 * Nat.sqrt (m / 4) + 1) ^ 2 ≤ m then 2 * Nat.sqrt (m / 4) + 1
      else 2 * Nat.sqrt (m / 4) := by
  have h1 : Nat.sqrt (m / 4) * Nat.sqrt (m / 4) ≤ m / 4 := Nat.sqrt_le _
  have h2 : m / 4 < (Nat.sqrt (m / 4) + 1) * (Nat.sqrt (m / 4) + 1) := Nat.lt_succ_sqrt _
  have h4 : 4 * (m / 4) ≤ m := by omega
  have h5 : m < 4 * (m / 4) + 4 := by omega
  set a := Nat.sqrt (m / 4) with ha
  have hlow : 2 * a ≤ Nat.sqrt m := Nat.le_sqrt.mpr (by nlinarith)
  have hhigh : Nat.sqrt m < 2 * a + 2 := Nat.sqrt_lt.mpr (by nlinarith)
  split
  case isTrue h =>
    have hup : 2 * a + 1 ≤ Nat.sqrt m := Nat.le_sqrt.mpr (by nlinarith [h])
    omega
  case isFalse h =>
    push_neg at h
    have hdn : Nat.sqrt m < 2 * a + 1 := Nat.sqrt_lt.mpr (by nlinarith [h])
    omega

/-- The square root never exceeds twice the quarter-input's root plus one. -/
theorem sqrt_le_two_mul_add_one (m : Nat) :
    Nat.sqrt m ≤ 2 * Nat.sqrt (m / 4) + 1 := by
  rw [sqrt_step m]
  split <;> omega

/-! ### Bounds on the trial candidate -/

/-- In any iteration whose shift is still at least `2`, the trial value
that gets squared is small enough that its square fits below `M`:
the compared chunk `m` is at most `M / 4` there. -/
theorem cand_sq_le {M m : Nat} (hm : m ≤ M / 4) (hM : 1 ≤ M) :
    (2 * Nat.sqrt (m / 4) + 1) ^ 2 ≤ M := by
  set a := Nat.sqrt (m / 4) with ha
  have h1 : a * a ≤ m / 4 := Nat.sqrt_le _
  rcases Nat.eq_zero_or_pos a with h0 | h0
  · simp [h0]
    omega
  · have haa : a ≤ a * a := Nat.le_mul_of_pos_left a h0
    have hsq : (2 * a + 1) ^ 2 = 4 * (a * a) + 4 * a + 1 := by ring
    omega

/-- If the quarter input is below `2 ^ (2*k - 2)`, the final trial value
is below `2 ^ k` (it fits in the low half of the width). -/
theorem cand_lt_half_pow {k m : Nat} (hk : 1 ≤ k) (hm : m / 4 < 2 ^ (2 * k - 2)) :
    2 * Nat.sqrt (m / 4) + 1 < 2 ^ k := by
  set a := Nat.sqrt (m / 4) with ha
  have h1 : a * a ≤ m / 4 := Nat.sqrt_le _
  have hlt : a < 2 ^ (k - 1) := by
    by_contra hcon
    push_neg at hcon
    have : 2 ^ (k - 1) * 2 ^ (k - 1) ≤ a * a := Nat.mul_le_mul hcon hcon
    have hpow : 2 ^ (k - 1) * 2 ^ (k - 1) = 2 ^ (2 * k - 2) := by
      rw [← pow_add]
      congr 1
      omega
    omega
  have hpk : 2 ^ k = 2 * 2 ^ (k - 1) := by
    rw [← pow_succ']
    congr 1
    omega
  omega

/-! ### Shift arithmetic helpers -/

theorem shiftRight_div4 (n s : Nat) : (n >>> s) / 4 = n >>> (s + 2) := by
  simp only [Nat.shiftRight_eq_div_pow, Nat.div_div_eq_div_mul, pow_add]
  norm_num

theorem shiftRight_le_of_le (n : Nat) {a b : Nat} (h : a ≤ b) : n >>> b ≤ n >>> a := by
  simp only [Nat.shiftRight_eq_div_pow]
  exact Nat.div_le_div_left (Nat.pow_le_pow_right (by norm_num) h)
    (Nat.pos_pow_of_pos _ (by norm_num))

/-! ### The digit-loop step -/

/-- A digit-loop iteration whose trial square fits in the type performs
one exact two-bit square-root step. -/
theorem digitStep_eq_sqrt (t : IntTy) (n s r : Nat)
    (hr : r = Nat.sqrt ((n >>> s) / 4))
    (hcand : (2 * r + 1) ^ 2 ≤ t.maxN)
    (hbits : 0 < t.bits) :
    digitStep t n s r = Nat.sqrt (n >>> s) := by
  have hsq : (2 * r + 1) ^ 2 = (2 * r + 1) * (2 * r + 1) := by ring
  have hself : 2 * r + 1 ≤ (2 * r + 1) ^ 2 := Nat.le_self_pow (by norm_num) _
  have hc1 : 2 * r + 1 ≤ t.maxN := le_trans hself hcand
  have hlt : 2 * r + 1 < 2 ^ t.bits := lt_of_le_of_lt hc1 (t.maxN_lt_pow hbits)
  have hdb : (r <<< 1) % 2 ^ t.bits = 2 * r := by
    rw [Nat.shiftLeft_eq, pow_one, Nat.mod_eq_of_lt (by omega)]
    omega
  have hwrap : t.wrapI ((2 * r + 1) * (2 * r + 1)) = (((2 * r + 1) * (2 * r + 1) : Nat) : Int) :=
    t.wrapI_eq_of_le (hsq ▸ hcand) hbits
  simp only [digitStep, hdb, Nat.mod_eq_of_lt hlt, hwrap, Nat.cast_le]
  rw [sqrt_step (n >>> s), ← hr, hsq]

/-- A final digit-loop iteration whose trial square exceeds a signed
type's maximum wraps to a negative machine value, so the comparison
accepts the too-large candidate. -/
theorem digitStep_overflow (t : IntTy) (n s r : Nat)
    (hs : t.signed = true)
    (hover : t.maxN < (2 * r + 1) ^ 2)
    (hfit : (2 * r + 1) ^ 2 < 2 ^ t.bits) :
    digitStep t n s r = 2 * r + 1 := by
  have hsq : (2 * r + 1) ^ 2 = (2 * r + 1) * (2 * r + 1) := by ring
  have hself : 2 * r + 1 ≤ (2 * r + 1) ^ 2 := Nat.le_self_pow (by norm_num) _
  have hlt : 2 * r + 1 < 2 ^ t.bits := lt_of_le_of_lt hself hfit
  have hdb : (r <<< 1) % 2 ^ t.bits = 2 * r := by
    rw [Nat.shiftLeft_eq, pow_one, Nat.mod_eq_of_lt (by omega)]
    omega
  have hneg : t.wrapI ((2 * r + 1) * (2 * r + 1)) < 0 :=
    t.wrapI_neg hs (hsq ▸ hover) (hsq ▸ hfit)
  simp only [digitStep, hdb, Nat.mod_eq_of_lt hlt]
  rw [if_pos (le_trans (le_of_lt hneg) (Int.ofNat_nonneg _))]

/-! ### The digit loop -/

theorem digitLoop_zero (t : IntTy) (n r : Nat) :
    digitLoop t n 0 r = digitStep t n 0 r := rfl

theorem digitLoop_add_two (t : IntTy) (n s r : Nat) :
    digitLoop t n (s + 2) r = digitLoop t n s (digitStep t n (s + 2) r) := rfl

/-- The final iteration, entered with the exact square root of `n / 4`
accumulated, produces `loopResult`: the floor square root unless the
final trial square overflows, in which case the wrapped comparison
accepts the candidate. -/
theorem digitLoop_zero_eq (t : IntTy) (k : Nat) (hb : t.bits = 2 * k) (hk : 2 ≤ k)
    (n : Nat) (hn : n ≤ t.maxN) (r : Nat) (hr : r = Nat.sqrt (n >>> 2)) :
    digitLoop t n 0 r = loopResult t n := by
  have hbits : 0 < t.bits := by omega
  have hsh2 : n >>> 2 = n / 4 := by
    rw [Nat.shiftRight_eq_div_pow]
  have hsh0 : n >>> 0 = n := rfl
  have hpp : 2 ^ (2 * k) = 2 ^ k * 2 ^ k := by
    rw [two_mul, pow_add]
  have hp2 : 2 ≤ 2 ^ k := by
    calc 2 = 2 ^ 1 := by norm_num
    _ ≤ 2 ^ k := Nat.pow_le_pow_right (by norm_num) (by omega)
  have hmax_le : t.maxN ≤ 2 ^ (2 * k) - 1 := by
    unfold IntTy.maxN
    rw [hb]
    have h1 : 2 ^ (2 * k - 1) ≤ 2 ^ (2 * k) := Nat.pow_le_pow_right (by norm_num) (by omega)
    split <;> omega
  have hq : n / 4 < 2 ^ (2 * k - 2) := by
    have h4 : 2 ^ (2 * k) = 4 * 2 ^ (2 * k - 2) := by
      rw [show (4 : Nat) = 2 ^ 2 by norm_num, ← pow_add]
      congr 1
      omega
    have h1 : n < 2 ^ (2 * k - 2) * 4 := by
      have h2 : n < 2 ^ (2 * k) := lt_of_le_of_lt hn (by rw [← hb]; exact t.maxN_lt_pow hbits)
      omega
    exact (Nat.div_lt_iff_lt_mul (by norm_num)).mpr h1
  have hcand_lt : 2 * Nat.sqrt (n / 4) + 1 < 2 ^ k := cand_lt_half_pow (by omega) hq
  have hfit : (2 * Nat.sqrt (n / 4) + 1) ^ 2 < 2 ^ t.bits := by
    rw [hb, hpp, pow_two]
    exact Nat.mul_lt_mul'' hcand_lt hcand_lt
  rw [digitLoop_zero]
  unfold loopResult
  split
  case isTrue hover =>
    have hsigned : t.signed = true := by
      by_contra hns
      simp only [Bool.not_eq_true] at hns
      have hmaxu : t.maxN = 2 ^ (2 * k) - 1 := by
        unfold IntTy.maxN
        rw [hb, if_neg (by simp [hns])]
      have : (2 * Nat.sqrt (n / 4) + 1) ^ 2 < 2 ^ (2 * k) := by rw [← hb]; exact hfit
      omega
    rw [digitStep_overflow t n 0 r hsigned (by rw [hr, hsh2]; exact hover)
      (by rw [hr, hsh2]; exact hfit), hr, hsh2]
  case isFalse hnover =>
    push_neg at hnover
    rw [digitStep_eq_sqrt t n 0 r (by rw [hr, hsh2, hsh0]) (by rw [hr, hsh2]; exact hnover)
      hbits, hsh0]

/-- Invariant run of the digit loop: started at an even shift with the
exact square root of the corresponding prefix of `n` accumulated, the
loop computes `loopResult t n`. -/
theorem digitLoop_inv (t : IntTy) (k : Nat) (hb : t.bits = 2 * k) (hk : 2 ≤ k)
    (n : Nat) (hn : n ≤ t.maxN) :
    ∀ j r, r = Nat.sqrt (n >>> (2 * j + 4)) → digitLoop t n (2 * j + 2) r = loopResult t n := by
  have hbits : 0 < t.bits := by omega
  have hM : 1 ≤ t.maxN := by
    unfold IntTy.maxN
    rw [hb]
    have h1 : 2 ^ 1 ≤ 2 ^ (2 * k - 1) := Nat.pow_le_pow_right (by norm_num) (by omega)
    have h2 : 2 ^ 1 ≤ 2 ^ (2 * k) := Nat.pow_le_pow_right (by norm_num) (by omega)
    split <;> omega
  have hchunk : ∀ s : Nat, 2 ≤ s → n >>> s ≤ t.maxN / 4 := by
    intro s hs
    calc n >>> s ≤ n >>> 2 := shiftRight_le_of_le n hs
    _ = n / 4 := by rw [Nat.shiftRight_eq_div_pow]
    _ ≤ t.maxN / 4 := Nat.div_le_div_right hn
  intro j
  induction j with
  | zero =>
    intro r hr
    norm_num at hr ⊢
    have hstep : digitStep t n 2 r = Nat.sqrt (n >>> 2) := by
      refine digitStep_eq_sqrt t n 2 r ?_ ?_ hbits
      · rw [shiftRight_div4]
        exact hr
      · have := cand_sq_le (hchunk 2 (by norm_num)) hM
        rwa [shiftRight_div4, ← hr] at this
    rw [show (2 : Nat) = 0 + 2 from by norm_num, digitLoop_add_two,
      show (0 + 2 : Nat) = 2 from by norm_num, hstep]
    exact digitLoop_zero_eq t k hb hk n hn _ rfl
  | succ j ih =>
    intro r hr
    rw [show (2 * (j + 1) + 2 : Nat) = (2 * j + 2) + 2 from by ring, digitLoop_add_two]
    have hstep : digitStep t n (2 * j + 2 + 2) r = Nat.sqrt (n >>> (2 * j + 4)) := by
      rw [show (2 * j + 2 + 2 : Nat) = 2 * j + 4 from by ring]
      refine digitStep_eq_sqrt t n (2 * j + 4) r ?_ ?_ hbits
      · rw [shiftRight_div4, show (2 * j + 4 + 2 : Nat) = 2 * (j + 1) + 4 from by ring]
        exact hr
      · have := cand_sq_le (hchunk (2 * j + 4) (by omega)) hM
        rw [shiftRight_div4] at this
        rwa [show (2 * j + 4 + 2 : Nat) = 2 * (j + 1) + 4 from by ring, ← hr] at this
    exact ih _ hstep

/-! ### The greatest-shift search -/

/-- Characterisation of the source's shift loop: from an even shift of at
least `2` whose previous position still saw a non-zero chunk, and with
enough fuel for the remaining iterations, the loop returns the unique
even `S ≤ bits` with `n >>> (S - 2) ≠ 0` and `n >>> S = 0` (at `S = bits`
the `wrapping_shr` wraps to a shift of `0` and the `n_shifted != *self`
guard stops the loop; mathematically `n >>> bits = 0` as well since
`n < 2 ^ bits`). -/
theorem findShiftLoop_spec (t : IntTy) (n : Nat) (hn0 : n ≠ 0) (hnlt : n < 2 ^ t.bits)
    (hbe : t.bits % 2 = 0) :
    ∀ fuel shift nsh, nsh = n >>> (shift % t.bits) → shift % 2 = 0 → 2 ≤ shift →
      shift ≤ t.bits → n >>> (shift - 2) ≠ 0 → (t.bits - shift) / 2 < fuel →
      ∃ S, findShiftLoop t n fuel shift nsh = S ∧ S % 2 = 0 ∧ 2 ≤ S ∧ S ≤ t.bits ∧
        n >>> (S - 2) ≠ 0 ∧ n >>> S = 0 := by
  intro fuel
  induction fuel with
  | zero =>
    intro shift nsh hnsh he h2 hle hprev hfuel
    omega
  | succ fuel ih =>
    intro shift nsh hnsh he h2 hle hprev hfuel
    by_cases hstop : shift = t.bits
    · have hnn : nsh = n := by
        rw [hnsh, hstop, Nat.mod_self]
        rfl
      subst hnn
      refine ⟨shift, ?_, he, h2, hle, hprev, ?_⟩
      · simp [findShiftLoop]
      · rw [hstop, Nat.shiftRight_eq_div_pow]
        exact Nat.div_eq_of_lt hnlt
    · have hlt2 : shift < t.bits := lt_of_le_of_ne hle hstop
      have hmod : shift % t.bits = shift := Nat.mod_eq_of_lt hlt2
      rw [hmod] at hnsh
      subst hnsh
      by_cases hzero : n >>> shift = 0
      · refine ⟨shift, ?_, he, h2, hle, hprev, hzero⟩
        simp [findShiftLoop, hzero]
      · have hne : n >>> shift ≠ n := by
          have h1 : n >>> shift ≤ n >>> 2 := shiftRight_le_of_le n h2
          have h2' : n >>> 2 = n / 4 := by rw [Nat.shiftRight_eq_div_pow]
          have h3 : n / 4 < n := Nat.div_lt_self (Nat.pos_of_ne_zero hn0) (by norm_num)
          omega
        have hrec : findShiftLoop t n (fuel + 1) shift (n >>> shift)
            = findShiftLoop t n fuel (shift + 2) (n >>> ((shift + 2) % t.bits)) := by
          simp only [findShiftLoop]
          rw [if_pos ⟨hzero, hne⟩]
        rw [hrec]
        exact ih (shift + 2) _ rfl (by omega) (by omega) (by omega)
          (by simpa using hzero) (by omega)

/-- For an in-range input of at least `4`, the starting shift of the
digit loop is even, between `2` and `bits - 2`, and marks the last even
position where the shifted input is still non-zero. -/
theorem startShift_spec (t : IntTy) (hbe : t.bits % 2 = 0) (h4b : 4 ≤ t.bits)
    (n : Nat) (hn4 : 4 ≤ n) (hnlt : n < 2 ^ t.bits) :
    startShift t n % 2 = 0 ∧ 2 ≤ startShift t n ∧ startShift t n ≤ t.bits - 2 ∧
      n >>> startShift t n ≠ 0 ∧ n >>> (startShift t n + 2) = 0 := by
  have hq : n >>> 2 = n / 4 := by rw [Nat.shiftRight_eq_div_pow]
  obtain ⟨S, hS, he, h2, hle, hprev, h0⟩ :=
    findShiftLoop_spec t n (by omega) hnlt hbe t.bits 2 (n >>> 2)
      (by rw [Nat.mod_eq_of_lt (by omega)]) (by norm_num) (by norm_num) (by omega)
      (by simpa using show n ≠ 0 from by omega) (by omega)
  have hS4 : 4 ≤ S := by
    rcases Nat.lt_or_ge S 4 with hc | hc
    · exfalso
      have hS2 : S = 2 := by omega
      rw [hS2, hq] at h0
      omega
    · exact hc
  have hrw : startShift t n = S - 2 := by rw [startShift, hS]
  refine ⟨by omega, by omega, by omega, ?_, ?_⟩
  · rw [hrw]
    exact hprev
  · rw [hrw, show S - 2 + 2 = S from by omega]
    exact h0

/-- For inputs below `4` the shift loop stops immediately and the digit
loop starts (and ends) at shift `0`. -/
theorem startShift_small (t : IntTy) (h3b : 3 ≤ t.bits) (n : Nat) (hn : n < 4) :
    startShift t n = 0 := by
  have hz : n >>> 2 = 0 := by
    rw [Nat.shiftRight_eq_div_pow]
    exact Nat.div_eq_of_lt (by omega)
  obtain ⟨b, hbb⟩ : ∃ b, t.bits = b + 1 := ⟨t.bits - 1, by omega⟩
  rw [startShift, hbb, hz]
  simp [findShiftLoop]

/-! ### Full characterisation of `integer_sqrt_checked` -/

theorem div4_lt_pow (t : IntTy) (k : Nat) (hb : t.bits = 2 * k) (hk : 1 ≤ k)
    {m : Nat} (hm : m ≤ t.maxN) : m / 4 < 2 ^ (2 * k - 2) := by
  have hbits : 0 < t.bits := by omega
  have h4 : 2 ^ (2 * k) = 4 * 2 ^ (2 * k - 2) := by
    rw [show (4 : Nat) = 2 ^ 2 by norm_num, ← pow_add]
    congr 1
    omega
  have h1 : m < 2 ^ (2 * k - 2) * 4 := by
    have h2 : m < 2 ^ (2 * k) := lt_of_le_of_lt hm (by rw [← hb]; exact t.maxN_lt_pow hbits)
    omega
  exact (Nat.div_lt_iff_lt_mul (by norm_num)).mpr h1

/-- The value the digit loop produces always fits in the low half of the
bit width. -/
theorem loopResult_lt_half (t : IntTy) (k : Nat) (hb : t.bits = 2 * k) (hk : 2 ≤ k)
    (m : Nat) (hm : m ≤ t.maxN) : loopResult t m < 2 ^ k := by
  have hbits : 0 < t.bits := by omega
  unfold loopResult
  split
  · exact cand_lt_half_pow (by omega) (div4_lt_pow t k hb (by omega) hm)
  · refine Nat.sqrt_lt.mpr ?_
    have hpp : 2 ^ k * 2 ^ k = 2 ^ (2 * k) := by rw [two_mul, pow_add]
    have h2 : m < 2 ^ (2 * k) := lt_of_le_of_lt hm (by rw [← hb]; exact t.maxN_lt_pow hbits)
    omega

theorem loopResult_le_maxN (t : IntTy) (k : Nat) (hb : t.bits = 2 * k) (hk : 2 ≤ k)
    (m : Nat) (hm : m ≤ t.maxN) : loopResult t m ≤ t.maxN := by
  have h1 : loopResult t m < 2 ^ k := loopResult_lt_half t k hb hk m hm
  have h2 : 2 ^ k ≤ t.maxN + 1 := by
    unfold IntTy.maxN
    rw [hb]
    have ha : 2 ^ k ≤ 2 ^ (2 * k - 1) := Nat.pow_le_pow_right (by norm_num) (by omega)
    have hb2 : 2 ^ k ≤ 2 ^ (2 * k) := Nat.pow_le_pow_right (by norm_num) (by omega)
    have hc : (1 : Nat) ≤ 2 ^ (2 * k - 1) := Nat.one_le_two_pow
    have hd : (1 : Nat) ≤ 2 ^ (2 * k) := Nat.one_le_two_pow
    split <;> omega
  omega

/-- What `integer_sqrt_checked` returns on every in-range non-negative
input: `loopResult` of the input. -/
theorem checked_eq (t : IntTy) (k : Nat) (hb : t.bits = 2 * k) (hk : 2 ≤ k)
    (n : Int) (h0 : 0 ≤ n) (hn : n ≤ t.maxI) :
    integer_sqrt_checked t n = some ((loopResult t n.toNat : Nat) : Int) := by
  have hnn : n.toNat ≤ t.maxN := Int.toNat_le.mpr hn
  have hbits : 0 < t.bits := by omega
  unfold integer_sqrt_checked
  rw [if_neg (not_lt.mpr h0)]
  have hloop : digitLoop t n.toNat (startShift t n.toNat) 0 = loopResult t n.toNat := by
    by_cases hsmall : n.toNat < 4
    · rw [startShift_small t (by omega) n.toNat hsmall]
      apply digitLoop_zero_eq t k hb hk n.toNat hnn 0
      have hz : n.toNat >>> 2 = 0 := by
        rw [Nat.shiftRight_eq_div_pow]
        exact Nat.div_eq_of_lt (by omega)
      rw [hz, Nat.sqrt_zero]
    · push_neg at hsmall
      have hmlt : n.toNat < 2 ^ t.bits := lt_of_le_of_lt hnn (t.maxN_lt_pow hbits)
      obtain ⟨he, h2, hle, hnz, hz⟩ := startShift_spec t (by omega) (by omega) n.toNat hsmall hmlt
      obtain ⟨j, hj⟩ : ∃ j, startShift t n.toNat = 2 * j + 2 := ⟨(startShift t n.toNat - 2) / 2, by omega⟩
      rw [hj]
      apply digitLoop_inv t k hb hk n.toNat hnn j 0
      have hz4 : n.toNat >>> (2 * j + 4) = 0 := by
        rw [show 2 * j + 4 = startShift t n.toNat + 2 from by omega]
        exact hz
      rw [hz4, Nat.sqrt_zero]
  show some (t.wrapI (digitLoop t n.toNat (startShift t n.toNat) 0))
      = some ((loopResult t n.toNat : Nat) : Int)
  rw [hloop]
  congr 1
  exact t.wrapI_eq_of_le (loopResult_le_maxN t k hb hk n.toNat hnn) hbits

/-! ### Monotonicity of the computed value -/

theorem loopResult_mono (t : IntTy) {m1 m2 : Nat} (h : m1 ≤ m2) :
    loopResult t m1 ≤ loopResult t m2 := by
  have ha : Nat.sqrt (m1 / 4) ≤ Nat.sqrt (m2 / 4) := Nat.sqrt_le_sqrt (Nat.div_le_div_right h)
  have hs : Nat.sqrt m1 ≤ Nat.sqrt m2 := Nat.sqrt_le_sqrt h
  unfold loopResult
  split
  case isTrue h1 =>
    split
    case isTrue h2 => omega
    case isFalse h2 =>
      exfalso
      push_neg at h2
      have hmono : (2 * Nat.sqrt (m1 / 4) + 1) ^ 2 ≤ (2 * Nat.sqrt (m2 / 4) + 1) ^ 2 :=
        Nat.pow_le_pow_left (by omega) 2
      omega
  case isFalse h1 =>
    split
    case isTrue h2 =>
      calc Nat.sqrt m1 ≤ Nat.sqrt m2 := hs
      _ ≤ 2 * Nat.sqrt (m2 / 4) + 1 := sqrt_le_two_mul_add_one m2
    case isFalse h2 => exact hs

/-! ### Facts about the supported types -/

theorem mem_supported_spec (t : IntTy) (ht : t ∈ supported) :
    ∃ k, t.bits = 2 * k ∧ 4 ≤ k := by
  fin_cases ht <;>
    first
      | exact ⟨4, by decide, by decide⟩
      | exact ⟨8, by decide, by decide⟩
      | exact ⟨16, by decide, by decide⟩
      | exact ⟨32, by decide, by decide⟩
      | exact ⟨64, by decide, by decide⟩

/-! ### Iteration counting and loop bounds -/

theorem digitIters_add_two (s : Nat) : digitIters (s + 2) = digitIters s + 1 := rfl

theorem digitIters_two_mul (j : Nat) : digitIters (2 * j) = j + 1 := by
  induction j with
  | zero => rfl
  | succ j ih =>
    rw [show 2 * (j + 1) = 2 * j + 2 from by ring, digitIters_add_two, ih]

/-- The even stopping position of the shift search is unique. -/
theorem shiftStop_unique {n S1 S2 : Nat}
    (p1 : S1 % 2 = 0) (g1 : 2 ≤ S1) (h1 : n >>> (S1 - 2) ≠ 0) (z1 : n >>> S1 = 0)
    (p2 : S2 % 2 = 0) (g2 : 2 ≤ S2) (h2 : n >>> (S2 - 2) ≠ 0) (z2 : n >>> S2 = 0) :
    S1 = S2 := by
  rcases Nat.lt_trichotomy S1 S2 with hlt | heq | hgt
  · exfalso
    have hle : S1 ≤ S2 - 2 := by omega
    have hmono := shiftRight_le_of_le n hle
    rw [z1] at hmono
    exact h2 (Nat.le_zero.mp hmono)
  · exact heq
  · exfalso
    have hle : S2 ≤ S1 - 2 := by omega
    have hmono := shiftRight_le_of_le n hle
    rw [z2] at hmono
    exact h1 (Nat.le_zero.mp hmono)

/-- Shared helper for the error-handling claims: the checked entry point
returns `none` exactly on negative input. -/
theorem checked_none_iff (t : IntTy) (n : Int) :
    integer_sqrt_checked t n = none ↔ n < 0 := by
  by_cases hneg : n < 0 <;> simp [integer_sqrt_checked, hneg]

/-! ### Claim theorems -/

set_option maxRecDepth 8000 in
/-- C1: the claim that for every supported width and every non-negative
input the result `r` of `integer_sqrt_checked` satisfies `r * r ≤ n` is
FALSE on this code: at `n = i32::MAX` the code returns `Some 46341`,
whose square `2147488281` exceeds `n`, while `46340` is the value the
claim requires (`46340² ≤ n < 46341²`).  The final trial square wraps
around the 32-bit width and is accepted by the comparison. -/
theorem c1_correctness_fails_at_i32_max :
    integer_sqrt_checked i32 2147483647 = some 46341 ∧
    i32.maxI = 2147483647 ∧
    ¬ ((46341 : Int) * 46341 ≤ 2147483647) ∧
    (46340 : Int) * 46340 ≤ 2147483647 ∧
    2147483647 < (46341 : Int) * 46341 := by
  refine ⟨by decide, by decide, by decide, by decide, by decide⟩

set_option maxRecDepth 8000 in
/-- C2: the claim that the trial square is computed with an
overflow-detecting multiplication whose overflow rejects the digit is
FALSE on this code: the source squares `candidate_result` with a plain
`*` (line 69), so at the final digit for `n = i32::MAX` the product
`46341 * 46341` exceeds `i32::MAX`, wraps to the negative machine value
`-2147479015`, participates in the `<=` comparison, and the digit is
ACCEPTED instead of rejected — the wrong answer then reaches the
caller. -/
theorem c2_multiplication_not_overflow_checked :
    i32.maxN < 46341 * 46341 ∧
    i32.wrapI (46341 * 46341) = -2147479015 ∧
    digitStep i32 2147483647 0 23170 = 46341 ∧
    integer_sqrt_checked i32 2147483647 = some 46341 := by
  refine ⟨by decide, by decide, by decide, by decide⟩

set_option maxRecDepth 16000 in
/-- C3: `integer_sqrt(TYPE_MAX)` is indeed the floor square root for the
unsigned 64- and 128-bit maxima, but the claim is FALSE for `i32::MAX`,
where the code returns `46341` while the floor square root of
`2147483647` is `46340`. -/
theorem c3_max_value_wrong_at_i32 :
    integer_sqrt_checked u64 (2 ^ 64 - 1) = some 4294967295 ∧
    integer_sqrt_checked u128 (2 ^ 128 - 1) = some 18446744073709551615 ∧
    integer_sqrt_checked i32 (2 ^ 31 - 1) = some 46341 ∧
    (46340 : Nat) = Nat.sqrt (2 ^ 31 - 1) := by
  refine ⟨by decide, by decide, by decide, Nat.eq_sqrt.mpr ⟨by norm_num, by norm_num⟩⟩

set_option maxRecDepth 8000 in
/-- C4: the claim that `integer_sqrt (k * k) = k` for every representable
square is FALSE on this code: `46340 * 46340 = 2147395600` is
representable in `i32`, yet the code returns `Some 46341 = Some (k + 1)`
(the final trial square `46341²` wraps and is wrongly accepted). -/
theorem c4_perfect_square_off_by_one :
    (46340 : Int) * 46340 ≤ i32.maxI ∧
    integer_sqrt_checked i32 (46340 * 46340) = some 46341 ∧
    (46341 : Int) ≠ 46340 ∧
    integer_sqrt_checked u8 81 = some 9 ∧
    integer_sqrt_checked u8 0 = some 0 := by
  refine ⟨by decide, by decide, by decide, by decide, by decide⟩

/-- C5: `integer_sqrt_checked` returns `None` exactly on negative input,
and for unsigned types (whose values are all `≥ minI = 0`) it never
returns `None`. -/
theorem c5_none_iff_negative (t : IntTy) (_ht : t ∈ supported) (n : Int) :
    (integer_sqrt_checked t n = none ↔ n < 0) ∧
    (t.signed = false → t.minI ≤ n → integer_sqrt_checked t n ≠ none) := by
  refine ⟨checked_none_iff t n, ?_⟩
  intro hs hmin
  have h0 : 0 ≤ n := by
    have : t.minI = 0 := by simp [IntTy.minI, hs]
    omega
  rw [Ne, checked_none_iff]
  omega

theorem c5_witness :
    integer_sqrt_checked i8 (-12) = none ∧ integer_sqrt_checked u8 7 ≠ none :=
  ⟨(c5_none_iff_negative i8 (by decide) (-12)).1.mpr (by decide),
    (c5_none_iff_negative u8 (by decide) 7).2 (by decide) (by decide)⟩

/-- C6: the convenience entry point is a thin wrapper over the checked
core: it fails with the fixed descriptive message exactly when the input
is negative, and otherwise returns precisely the checked core's value,
never a substituted default. -/
theorem c6_wrapper_thin (t : IntTy) (_ht : t ∈ supported) (n : Int) :
    (integer_sqrt t n = Except.error "cannot calculate square root of negative number" ↔ n < 0) ∧
    (∀ r, integer_sqrt_checked t n = some r → integer_sqrt t n = Except.ok r) := by
  constructor
  · constructor
    · intro herr
      rw [← checked_none_iff t n]
      by_contra hsome
      obtain ⟨r, hr⟩ := Option.ne_none_iff_exists'.mp hsome
      simp [integer_sqrt, hr] at herr
    · intro hneg
      have hnone : integer_sqrt_checked t n = none := (checked_none_iff t n).mpr hneg
      simp [integer_sqrt, hnone]
  · intro r hr
    simp [integer_sqrt, hr]

theorem c6_witness :
    integer_sqrt i8 (-12) = Except.error "cannot calculate square root of negative number" ∧
    integer_sqrt u8 81 = Except.ok 9 :=
  ⟨(c6_wrapper_thin i8 (by decide) (-12)).1.mpr (by decide),
    (c6_wrapper_thin u8 (by decide) 81).2 9 (by decide)⟩

/-- C7: monotonicity — for every supported width and all in-range
non-negative inputs `a ≤ b`, `integer_sqrt a ≤ integer_sqrt b`.  This
holds even though individual values can be wrong: the overflow-affected
outputs only ever exceed the true square root, and the overflow condition
itself is monotone in the input. -/
theorem c7_monotone (t : IntTy) (ht : t ∈ supported) (a b : Int)
    (h0 : 0 ≤ a) (hab : a ≤ b) (hmax : b ≤ t.maxI) (ra rb : Int)
    (hra : integer_sqrt t a = Except.ok ra) (hrb : integer_sqrt t b = Except.ok rb) :
    ra ≤ rb := by
  obtain ⟨k, hbk, hk⟩ := mem_supported_spec t ht
  have hca := checked_eq t k hbk (by omega) a h0 (le_trans hab hmax)
  have hcb := checked_eq t k hbk (by omega) b (le_trans h0 hab) hmax
  simp only [integer_sqrt, hca, hcb, Except.ok.injEq] at hra hrb
  rw [← hra, ← hrb]
  exact_mod_cast loopResult_mono t (Int.toNat_le_toNat hab)

theorem c7_witness : (2 : Int) ≤ 3 :=
  c7_monotone u8 (by decide) 7 10 (by decide) (by decide) (by decide) 2 3
    (by rfl) (by rfl)

/-- C8: both loops are bounded.  The shift search is insensitive to any
fuel of at least the bit width (it stops by its own exit condition within
`bits / 2` iterations), the starting shift never reaches the bit width,
and the digit loop performs at most `bits / 2` iterations. -/
theorem c8_bounded_loops (t : IntTy) (ht : t ∈ supported) (n : Int)
    (_h0 : 0 ≤ n) (hn : n ≤ t.maxI) :
    (∀ fuel, t.bits ≤ fuel →
      findShiftLoop t n.toNat fuel 2 (n.toNat >>> 2)
        = findShiftLoop t n.toNat t.bits 2 (n.toNat >>> 2)) ∧
    startShift t n.toNat ≤ t.bits - 2 ∧
    digitIters (startShift t n.toNat) ≤ t.bits / 2 := by
  obtain ⟨k, hbk, hk⟩ := mem_supported_spec t ht
  have hbits : 0 < t.bits := by omega
  have hnn : n.toNat ≤ t.maxN := Int.toNat_le.mpr hn
  have hmlt : n.toNat < 2 ^ t.bits := lt_of_le_of_lt hnn (t.maxN_lt_pow hbits)
  by_cases hsmall : n.toNat < 4
  · have hz : n.toNat >>> 2 = 0 := by
      rw [Nat.shiftRight_eq_div_pow]
      exact Nat.div_eq_of_lt (by omega)
    refine ⟨?_, ?_, ?_⟩
    · intro fuel hfuel
      obtain ⟨f, hf⟩ : ∃ f, fuel = f + 1 := ⟨fuel - 1, by omega⟩
      obtain ⟨b, hbb⟩ : ∃ b, t.bits = b + 1 := ⟨t.bits - 1, by omega⟩
      rw [hf, hbb, hz]
      simp [findShiftLoop]
    · rw [startShift_small t (by omega) _ hsmall]
      omega
    · rw [startShift_small t (by omega) _ hsmall]
      show digitIters 0 ≤ t.bits / 2
      rw [show digitIters 0 = 1 from rfl]
      omega
  · push_neg at hsmall
    have hchar : ∀ fuel, t.bits ≤ fuel →
        ∃ S, findShiftLoop t n.toNat fuel 2 (n.toNat >>> 2) = S ∧ S % 2 = 0 ∧ 2 ≤ S ∧
          S ≤ t.bits ∧ n.toNat >>> (S - 2) ≠ 0 ∧ n.toNat >>> S = 0 := by
      intro fuel hfuel
      exact findShiftLoop_spec t n.toNat (by omega) hmlt (by omega) fuel 2 (n.toNat >>> 2)
        (by rw [Nat.mod_eq_of_lt (by omega)]) (by norm_num) (by norm_num) (by omega)
        (by simpa using show n.toNat ≠ 0 from by omega) (by omega)
    obtain ⟨S0, hS0, p0, g0, l0, h0', z0⟩ := hchar t.bits le_rfl
    have hss : startShift t n.toNat = S0 - 2 := by rw [startShift, hS0]
    refine ⟨?_, by omega, ?_⟩
    · intro fuel hfuel
      obtain ⟨S1, hS1, p1, g1, l1, h1, z1⟩ := hchar fuel hfuel
      rw [hS1, hS0, shiftStop_unique p1 g1 h1 z1 p0 g0 h0' z0]
    · obtain ⟨j, hj⟩ : ∃ j, S0 - 2 = 2 * j := ⟨(S0 - 2) / 2, by omega⟩
      rw [hss, hj, digitIters_two_mul]
      omega

theorem c8_witness :
    startShift u8 81 ≤ u8.bits - 2 ∧ digitIters (startShift u8 81) ≤ u8.bits / 2 :=
  ⟨(c8_bounded_loops u8 (by decide) 81 (by decide) (by decide)).2.1,
    (c8_bounded_loops u8 (by decide) 81 (by decide) (by decide)).2.2⟩

/-- C9: the shift-determination step yields the highest even shift at
which the (mathematically, i.e. unwrapped) shifted input is non-zero and
strictly smaller than the input, `0` when the input is below `4`, and the
shift used never reaches the bit width. -/
theorem c9_shift_determination (t : IntTy) (ht : t ∈ supported) (n : Int)
    (_h0 : 0 ≤ n) (hn : n ≤ t.maxI) :
    (n.toNat < 4 → startShift t n.toNat = 0) ∧
    (4 ≤ n.toNat →
      startShift t n.toNat % 2 = 0 ∧
      n.toNat >>> startShift t n.toNat ≠ 0 ∧
      n.toNat >>> startShift t n.toNat < n.toNat ∧
      startShift t n.toNat ≤ t.bits - 2 ∧
      (∀ s, s % 2 = 0 → startShift t n.toNat < s → n.toNat >>> s = 0)) := by
  obtain ⟨k, hbk, hk⟩ := mem_supported_spec t ht
  have hbits : 0 < t.bits := by omega
  have hnn : n.toNat ≤ t.maxN := Int.toNat_le.mpr hn
  have hmlt : n.toNat < 2 ^ t.bits := lt_of_le_of_lt hnn (t.maxN_lt_pow hbits)
  constructor
  · intro hsmall
    exact startShift_small t (by omega) _ hsmall
  · intro hge
    obtain ⟨he, h2, hle, hnz, hz⟩ := startShift_spec t (by omega) (by omega) _ hge hmlt
    refine ⟨he, hnz, ?_, hle, ?_⟩
    · have h1 : n.toNat >>> startShift t n.toNat ≤ n.toNat >>> 2 := shiftRight_le_of_le _ h2
      have h2' : n.toNat >>> 2 = n.toNat / 4 := by rw [Nat.shiftRight_eq_div_pow]
      have h3 : n.toNat / 4 < n.toNat := Nat.div_lt_self (by omega) (by norm_num)
      omega
    · intro s hse hgt
      have hstep : startShift t n.toNat + 2 ≤ s := by omega
      have hm := shiftRight_le_of_le n.toNat hstep
      rw [hz] at hm
      exact Nat.le_zero.mp hm

theorem c9_witness :
    (81 : Nat) >>> startShift u8 81 ≠ 0 ∧ (81 : Nat) >>> startShift u8 81 < 81 := by
  have h := (c9_shift_determination u8 (by decide) 81 (by decide) (by decide)).2 (by decide)
  exact ⟨h.2.1, h.2.2.1⟩

/-- C10: the value returned by `integer_sqrt_checked` on any in-range
non-negative input always fits in the low half of the bit width:
`0 ≤ r < 2 ^ (bits / 2)`. -/
theorem c10_result_fits_half_width (t : IntTy) (ht : t ∈ supported) (n : Int)
    (h0 : 0 ≤ n) (hn : n ≤ t.maxI) (r : Int)
    (hr : integer_sqrt_checked t n = some r) :
    0 ≤ r ∧ r < 2 ^ (t.bits / 2) := by
  obtain ⟨k, hbk, hk⟩ := mem_supported_spec t ht
  have hc := checked_eq t k hbk (by omega) n h0 hn
  rw [hc, Option.some_inj] at hr
  rw [← hr]
  constructor
  · exact Int.ofNat_nonneg _
  · have hlt := loopResult_lt_half t k hbk (by omega) n.toNat (Int.toNat_le.mpr hn)
    have hkk : t.bits / 2 = k := by omega
    rw [hkk]
    exact_mod_cast hlt

theorem c10_witness : (0 : Int) ≤ 9 ∧ (9 : Int) < 2 ^ (u8.bits / 2) :=
  c10_result_fits_half_width u8 (by decide) 81 (by decide) (by decide) 9 (by decide)

end IntegerSqrt
